import Mathlib

/-!
Shallow embedding of the kitchen-station simulation
(`Dish.cpp`, `KitchenStation.cpp`, `StationManager.cpp`).

Machine `int` quantities are modelled as `Int` (signed overflow is
undefined behaviour in the source language, so the unbounded model covers
every defined execution); `double` prices are never used arithmetically by
the operations under study, so they are carried as an opaque `Int` payload.

Pointer identity of `Dish*` objects is modelled by tagging each dish value
with a numeric id (`DishRef`): two references are "the same pointer" iff
their ids coincide.  Stations inside the manager are modelled by value,
which is faithful for every collection in which no station pointer is
inserted twice (inserting the same pointer twice would double-free in the
source).
-/

namespace Bistro

/-- Cuisine categories of `Dish.hpp`. -/
inductive CuisineType where
  | ITALIAN | MEXICAN | CHINESE | INDIAN | AMERICAN | FRENCH | OTHER
deriving DecidableEq

/-- The `Ingredient` struct: name, quantity on hand, quantity required per
preparation, unit price. -/
structure Ingredient where
  name : String
  quantity : Int
  required_quantity : Int
  price : Int
deriving DecidableEq

/-- The `Dish` entity as the station layer sees it. -/
structure Dish where
  name : String
  ingredients : List Ingredient
  prep_time : Int
  price : Int
  cuisine_type : CuisineType
deriving DecidableEq

/-- A `Dish*`: pointer identity (`id`) plus the pointee.  Pointer equality
in the source corresponds to equality of `id`. -/
structure DishRef where
  id : Nat
  dish : Dish
deriving DecidableEq

/-- The `KitchenStation` entity: name, roster of dish references, and
ingredient stock. -/
structure KitchenStation where
  station_name : String
  dishes : List DishRef
  ingredients_stock : List Ingredient
deriving DecidableEq

/-- `KitchenStation::assignDishToStation`: refuses a dish already present
by pointer identity, otherwise appends it to the roster. -/
def assignDishToStation (st : KitchenStation) (d : DishRef) : Bool × KitchenStation :=
  if st.dishes.any (fun a => a.id == d.id) then (false, st)
  else (true, { st with dishes := st.dishes ++ [d] })

/-- Loop body of `KitchenStation::replenishStationIngredients` on the stock
list: the first entry with a matching name gets `ing.quantity` added to its
quantity (its other fields are untouched); if no entry matches, `ing` is
appended verbatim. -/
def replenishStock : List Ingredient → Ingredient → List Ingredient
  | [], ing => [ing]
  | e :: rest, ing =>
    if e.name = ing.name then { e with quantity := e.quantity + ing.quantity } :: rest
    else e :: replenishStock rest ing

/-- `KitchenStation::replenishStationIngredients`. -/
def replenishStationIngredients (st : KitchenStation) (ing : Ingredient) : KitchenStation :=
  { st with ingredients_stock := replenishStock st.ingredients_stock ing }

/-- Inner scan of `KitchenStation::canCompleteOrder`: some stock entry has
the required name and at least the required quantity. -/
def ingredientInStock (stock : List Ingredient) (ing : Ingredient) : Bool :=
  stock.any (fun e => e.name == ing.name && ing.required_quantity ≤ e.quantity)

/-- `KitchenStation::canCompleteOrder`: the first dish on the roster whose
name matches is checked; all of its required ingredients must be in stock.
No dish with the name means `false`. -/
def canCompleteOrder (st : KitchenStation) (dish_name : String) : Bool :=
  match st.dishes.find? (fun d => d.dish.name == dish_name) with
  | some d => d.dish.ingredients.all (fun ing => ingredientInStock st.ingredients_stock ing)
  | none => false

/-- Inner loop of `KitchenStation::prepareDish` for one required
ingredient: the first stock entry with a matching name has the required
quantity subtracted, clamped below at `0`, and the scan stops. -/
def consumeOne : List Ingredient → Ingredient → List Ingredient
  | [], _ => []
  | e :: rest, req =>
    if req.name = e.name then
      { e with quantity :=
          if e.quantity - req.required_quantity ≤ 0 then 0
          else e.quantity - req.required_quantity } :: rest
    else e :: consumeOne rest req

/-- Consumption of one dish's whole requirement list, in order. -/
def consumeDish (stock : List Ingredient) (ings : List Ingredient) : List Ingredient :=
  ings.foldl consumeOne stock

/-- Outer loop of `KitchenStation::prepareDish` over the roster: it has no
break, so EVERY dish whose name matches consumes its requirement list. -/
def consumeMatching (dish_name : String) (stock : List Ingredient) (ds : List DishRef) :
    List Ingredient :=
  ds.foldl
    (fun acc d => if d.dish.name = dish_name then consumeDish acc d.dish.ingredients else acc)
    stock

/-- `KitchenStation::prepareDish`: returns `false` with no effect when the
order cannot be completed; otherwise every roster dish whose name matches
consumes its requirements from the stock, and finally every stock entry
whose quantity is exactly `0` is erased. -/
def prepareDish (st : KitchenStation) (dish_name : String) : Bool × KitchenStation :=
  if canCompleteOrder st dish_name then
    let stock1 :=
      (consumeMatching dish_name st.ingredients_stock st.dishes).filter
        (fun e => e.quantity != 0)
    (true, { st with ingredients_stock := stock1 })
  else (false, st)

/-- The manager's state: the ordered sequence of stations.  The underlying
indexed-list container of the source is not under `src/`; its indexed
insert, indexed remove, indexed get and length operations are
modelled from the spec: by `List` position operations (ordered sequence,
insertion order). -/
abbrev StationManager := List KitchenStation

/-- `StationManager::findStation` (first station with the name, or null). -/
def findStation (mgr : StationManager) (name : String) : Option KitchenStation :=
  mgr.find? (fun s => s.station_name == name)

/-- Index of the first station with the name, for position-sensitive
operations. -/
def findStationIdx (mgr : StationManager) (name : String) : Option Nat :=
  mgr.findIdx? (fun s => s.station_name == name)

/-- `StationManager::removeStation`: scans for the first station with the
name, deallocates it and removes it from the sequence. -/
def removeStation (mgr : StationManager) (name : String) : Bool × StationManager :=
  match findStationIdx mgr name with
  | some i => (true, mgr.eraseIdx i)
  | none => (false, mgr)

/-- `StationManager::moveStationToFront`: the first station with the name
is detached from its position and reinserted at index `0`. -/
def moveStationToFront (mgr : StationManager) (name : String) : Bool × StationManager :=
  match findStationIdx mgr name with
  | some i =>
    match mgr[i]? with
    | some s => (true, s :: mgr.eraseIdx i)
    | none => (false, mgr)
  | none => (false, mgr)

/-- Content merge of `StationManager::mergeStations`: every dish reference
of `s2` is assigned into `s1` (duplicates by identity skipped), then every
stock entry of `s2` is replenished into `s1` (accumulating by name). -/
def mergeInto (s1 s2 : KitchenStation) : KitchenStation :=
  (s2.ingredients_stock.foldl replenishStationIngredients
    (s2.dishes.foldl (fun acc d => (assignDishToStation acc d).snd) s1))

/-- Replaces the first station carrying the given name (in-place mutation
through the pointer returned by `findStation`). -/
def setFirstNamed : StationManager → String → KitchenStation → StationManager
  | [], _, _ => []
  | s :: rest, name, v =>
    if s.station_name = name then v :: rest
    else s :: setFirstNamed rest name v

/-- `StationManager::mergeStations`.  The source guard is the pointer
comparison `station1 != station2`; since each found station's name equals
its query string, the two pointers coincide exactly when the two query
names are equal, which is how the guard is rendered here. -/
def mergeStations (mgr : StationManager) (name1 name2 : String) : Bool × StationManager :=
  match findStation mgr name1, findStation mgr name2 with
  | some s1, some s2 =>
    if name1 = name2 then (false, mgr)
    else (true, (removeStation (setFirstNamed mgr name1 (mergeInto s1 s2)) name2).snd)
  | _, _ => (false, mgr)

/-- First stock entry with the given name (how the source addresses "the
stock entry named n"). -/
def stockLookup (stock : List Ingredient) (n : String) : Option Ingredient :=
  stock.find? (fun e => e.name == n)

/-- Total stock quantity carried under one ingredient name. -/
def sumQuantity : List Ingredient → String → Int
  | [], _ => 0
  | e :: rest, n => (if e.name = n then e.quantity else 0) + sumQuantity rest n

/-- Stock well-formedness: no two entries share a name. -/
def nodupNames (stock : List Ingredient) : Prop :=
  (stock.map Ingredient.name).Nodup

instance (stock : List Ingredient) : Decidable (nodupNames stock) := by
  unfold nodupNames; infer_instance

/-- A sequence of `prepareDish` calls, each acting on the station state the
previous one left. -/
def prepareSequence (st : KitchenStation) (names : List String) : KitchenStation :=
  names.foldl (fun s n => (prepareDish s n).snd) st

/-- The spec's wording of feasibility (§4.1 `canComplete`): SOME dish named
`dish_name` is on the roster and each of its requirements is covered by a
stock entry of the same name with enough quantity.  Stated from the spec's
words, to be compared with the source's `canCompleteOrder`. -/
def canCompleteSpec (st : KitchenStation) (dish_name : String) : Prop :=
  ∃ d ∈ st.dishes, d.dish.name = dish_name ∧
    ∀ ing ∈ d.dish.ingredients, ∃ e ∈ st.ingredients_stock,
      e.name = ing.name ∧ ing.required_quantity ≤ e.quantity

instance (st : KitchenStation) (dish_name : String) :
    Decidable (canCompleteSpec st dish_name) := by
  unfold canCompleteSpec; infer_instance

/-! ### Concrete example data used in witnesses and counterexamples -/

/-- The dish of the spec's section 8 scenario: a sandwich needing two
tomatoes. -/
def exGrillDish : DishRef :=
  ⟨1, ⟨"Sandwich", [⟨"Tomato", 0, 2, 0⟩], 5, 10, CuisineType.AMERICAN⟩⟩

/-- The station of the spec's section 8 scenario, stocked with exactly two
tomatoes. -/
def exStGrill : KitchenStation :=
  ⟨"Grill", [exGrillDish], [⟨"Tomato", 2, 0, 1⟩]⟩

/-- A dish whose requirement list carries the same ingredient name twice. -/
def exDupReqDish : DishRef :=
  ⟨2, ⟨"A", [⟨"T", 0, 2, 0⟩, ⟨"T", 0, 3, 0⟩], 0, 0, CuisineType.OTHER⟩⟩

/-- A station whose single dish lists ingredient name `T` twice. -/
def exStDupReq : KitchenStation :=
  ⟨"S", [exDupReqDish], [⟨"T", 6, 0, 0⟩]⟩

/-- A station with two distinct dish references sharing the name `A`: the
first is infeasible, the second trivially feasible. -/
def exStDupDish : KitchenStation :=
  ⟨"S", [⟨3, ⟨"A", [⟨"T", 0, 10, 0⟩], 0, 0, CuisineType.OTHER⟩⟩,
         ⟨4, ⟨"A", [], 0, 0, CuisineType.OTHER⟩⟩],
   [⟨"T", 1, 0, 0⟩]⟩

/-- A collection with one station named `a` and two stations named `b`. -/
def exMgrDupB : StationManager :=
  [⟨"a", [], [⟨"T", 1, 0, 0⟩]⟩,
   ⟨"b", [⟨5, ⟨"B", [], 0, 0, CuisineType.OTHER⟩⟩], [⟨"T", 2, 0, 0⟩]⟩,
   ⟨"b", [], []⟩]

/-- A two-station collection used to exercise a successful merge. -/
def exMgrPair : StationManager :=
  [⟨"a", [⟨6, ⟨"D", [], 0, 0, CuisineType.OTHER⟩⟩], [⟨"Tomato", 5, 0, 0⟩]⟩,
   ⟨"b", [⟨7, ⟨"E", [], 0, 0, CuisineType.OTHER⟩⟩], [⟨"Lettuce", 3, 0, 0⟩]⟩]

/-! ### Helper lemmas about the stock operations -/

theorem stockLookup_nil (n : String) : stockLookup [] n = none := rfl

theorem stockLookup_cons (e : Ingredient) (rest : List Ingredient) (n : String) :
    stockLookup (e :: rest) n = if e.name = n then some e else stockLookup rest n := by
  by_cases h : e.name = n
  · simp [stockLookup, List.find?_cons_of_pos, h]
  · simp [stockLookup, List.find?_cons_of_neg, h]

theorem stockLookup_eq_none_of_not_mem {stock : List Ingredient} {n : String}
    (h : n ∉ stock.map Ingredient.name) : stockLookup stock n = none := by
  induction stock with
  | nil => rfl
  | cons e rest ih =>
    simp only [List.map_cons, List.mem_cons, not_or] at h
    rw [stockLookup_cons, if_neg (fun he => h.1 he.symm)]
    exact ih h.2

theorem stockLookup_of_mem_nodup {stock : List Ingredient} {e : Ingredient}
    (hn : nodupNames stock) (he : e ∈ stock) : stockLookup stock e.name = some e := by
  induction stock with
  | nil => cases he
  | cons x rest ih =>
    rw [stockLookup_cons]
    rcases List.mem_cons.mp he with rfl | hr
    · simp
    · have hx : x.name ≠ e.name := by
        intro hx
        have : e.name ∈ rest.map Ingredient.name := List.mem_map_of_mem _ hr
        rw [← hx] at this
        exact (List.nodup_cons.mp hn).1 this
      rw [if_neg hx]
      exact ih (List.nodup_cons.mp hn).2 hr

theorem stockLookup_replenishStock_ne (stock : List Ingredient) (ing : Ingredient) {n : String}
    (h : n ≠ ing.name) :
    stockLookup (replenishStock stock ing) n = stockLookup stock n := by
  induction stock with
  | nil =>
    simp only [replenishStock, stockLookup_cons, stockLookup_nil]
    rw [if_neg fun he => h he.symm]
  | cons e rest ih =>
    by_cases hm : e.name = ing.name
    · have hen : ¬ e.name = n := fun he => h (he.symm.trans hm)
      simp only [replenishStock, if_pos hm, stockLookup_cons, hen, if_false, if_neg hen]
    · simp only [replenishStock, if_neg hm, stockLookup_cons, ih]

theorem stockLookup_replenishStock_self (stock : List Ingredient) (ing : Ingredient) :
    stockLookup (replenishStock stock ing) ing.name =
      some ((stockLookup stock ing.name).elim ing
        (fun e => { e with quantity := e.quantity + ing.quantity })) := by
  induction stock with
  | nil =>
    simp [replenishStock, stockLookup_cons, stockLookup_nil]
  | cons e rest ih =>
    by_cases hm : e.name = ing.name
    · simp [replenishStock, hm, stockLookup_cons]
    · simp only [replenishStock, if_neg hm, stockLookup_cons, if_neg hm, ih]

theorem sumQuantity_replenishStock (stock : List Ingredient) (ing : Ingredient) (n : String) :
    sumQuantity (replenishStock stock ing) n =
      sumQuantity stock n + (if ing.name = n then ing.quantity else 0) := by
  induction stock with
  | nil =>
    rw [replenishStock, sumQuantity, sumQuantity, sumQuantity]
    by_cases h : ing.name = n <;> simp [h]
  | cons e rest ih =>
    rw [replenishStock]
    by_cases hm : e.name = ing.name
    · rw [if_pos hm, sumQuantity, sumQuantity]
      by_cases hn : e.name = n
      · rw [if_pos hn, if_pos hn, if_pos (hm ▸ hn)]
        ring
      · rw [if_neg hn, if_neg hn, if_neg fun h => hn (hm.trans h)]
        ring
    · rw [if_neg hm, sumQuantity, sumQuantity, ih]
      ring

theorem mem_names_replenishStock {stock : List Ingredient} {ing : Ingredient} {n : String}
    (h : n ∈ (replenishStock stock ing).map Ingredient.name) :
    n ∈ stock.map Ingredient.name ∨ n = ing.name := by
  induction stock with
  | nil =>
    rw [replenishStock] at h
    simp at h
    exact Or.inr h
  | cons e rest ih =>
    rw [replenishStock] at h
    by_cases hm : e.name = ing.name
    · rw [if_pos hm] at h
      simp only [List.map_cons, List.mem_cons] at h ⊢
      tauto
    · rw [if_neg hm] at h
      simp only [List.map_cons, List.mem_cons] at h ⊢
      rcases h with h | h
      · exact Or.inl (Or.inl h)
      · rcases ih h with h | h
        · exact Or.inl (Or.inr h)
        · exact Or.inr h

theorem nodupNames_replenishStock {stock : List Ingredient} (ing : Ingredient)
    (h : nodupNames stock) : nodupNames (replenishStock stock ing) := by
  induction stock with
  | nil =>
    rw [replenishStock]
    simp [nodupNames]
  | cons e rest ih =>
    rw [replenishStock]
    rcases List.nodup_cons.mp h with ⟨he, hrest⟩
    by_cases hm : e.name = ing.name
    · rw [if_pos hm]
      exact List.nodup_cons.mpr ⟨he, hrest⟩
    · rw [if_neg hm]
      refine List.nodup_cons.mpr ⟨?_, ih hrest⟩
      intro hmem
      rcases mem_names_replenishStock hmem with hmem | hmem
      · exact he hmem
      · exact hm hmem

theorem names_consumeOne (stock : List Ingredient) (req : Ingredient) :
    (consumeOne stock req).map Ingredient.name = stock.map Ingredient.name := by
  induction stock with
  | nil => rfl
  | cons e rest ih =>
    rw [consumeOne]
    by_cases hm : req.name = e.name
    · rw [if_pos hm]
      simp
    · rw [if_neg hm]
      simp [ih]

theorem stockLookup_consumeOne_ne (stock : List Ingredient) (req : Ingredient) {n : String}
    (h : n ≠ req.name) : stockLookup (consumeOne stock req) n = stockLookup stock n := by
  induction stock with
  | nil => rfl
  | cons e rest ih =>
    rw [consumeOne]
    by_cases hm : req.name = e.name
    · rw [if_pos hm, stockLookup_cons, stockLookup_cons]
      have : ¬ e.name = n := fun he => h (hm.trans he).symm
      rw [if_neg this, if_neg this]
    · rw [if_neg hm, stockLookup_cons, stockLookup_cons, ih]

theorem stockLookup_consumeOne_self (stock : List Ingredient) (req : Ingredient) :
    stockLookup (consumeOne stock req) req.name =
      (stockLookup stock req.name).map (fun e =>
        { e with quantity :=
            if e.quantity - req.required_quantity ≤ 0 then 0
            else e.quantity - req.required_quantity }) := by
  induction stock with
  | nil => rfl
  | cons e rest ih =>
    rw [consumeOne]
    by_cases hm : req.name = e.name
    · simp [if_pos hm, stockLookup_cons, hm]
    · rw [if_neg hm, stockLookup_cons, stockLookup_cons,
        if_neg (fun h => hm h.symm), if_neg (fun h => hm h.symm), ih]

theorem consumeOne_nonneg {stock : List Ingredient} (req : Ingredient)
    (h : ∀ e ∈ stock, 0 ≤ e.quantity) : ∀ e ∈ consumeOne stock req, 0 ≤ e.quantity := by
  induction stock with
  | nil => intro e he; cases he
  | cons x rest ih =>
    intro e he
    rw [consumeOne] at he
    by_cases hm : req.name = x.name
    · rw [if_pos hm] at he
      rcases List.mem_cons.mp he with rfl | hr
      · by_cases hc : x.quantity - req.required_quantity ≤ 0
        · simp [hc]
        · simp only [if_neg hc]
          omega
      · exact h e (List.mem_cons_of_mem _ hr)
    · rw [if_neg hm] at he
      rcases List.mem_cons.mp he with rfl | hr
      · exact h e (List.mem_cons_self _ _)
      · exact ih (fun e he => h e (List.mem_cons_of_mem _ he)) e hr

theorem consumeDish_cons (stock : List Ingredient) (r : Ingredient) (rest : List Ingredient) :
    consumeDish stock (r :: rest) = consumeDish (consumeOne stock r) rest := rfl

theorem names_consumeDish (stock : List Ingredient) (ings : List Ingredient) :
    (consumeDish stock ings).map Ingredient.name = stock.map Ingredient.name := by
  induction ings generalizing stock with
  | nil => rfl
  | cons r rest ih =>
    rw [consumeDish_cons]
    exact (ih (consumeOne stock r)).trans (names_consumeOne stock r)

theorem nodupNames_consumeDish {stock : List Ingredient} (ings : List Ingredient)
    (h : nodupNames stock) : nodupNames (consumeDish stock ings) := by
  unfold nodupNames at h ⊢
  rw [names_consumeDish]
  exact h

theorem stockLookup_consumeDish_not_mem (stock : List Ingredient) {ings : List Ingredient}
    {n : String} (h : n ∉ ings.map Ingredient.name) :
    stockLookup (consumeDish stock ings) n = stockLookup stock n := by
  induction ings generalizing stock with
  | nil => rfl
  | cons r rest ih =>
    simp only [List.map_cons, List.mem_cons, not_or] at h
    rw [consumeDish_cons]
    exact (ih (consumeOne stock r) h.2).trans (stockLookup_consumeOne_ne stock r h.1)

theorem stockLookup_consumeDish_mem (stock : List Ingredient) {ings : List Ingredient}
    {ing : Ingredient} (hnd : (ings.map Ingredient.name).Nodup) (hm : ing ∈ ings) :
    stockLookup (consumeDish stock ings) ing.name =
      (stockLookup stock ing.name).map (fun e =>
        { e with quantity :=
            if e.quantity - ing.required_quantity ≤ 0 then 0
            else e.quantity - ing.required_quantity }) := by
  induction ings generalizing stock with
  | nil => cases hm
  | cons r rest ih =>
    rw [List.map_cons] at hnd
    rcases List.nodup_cons.mp hnd with ⟨hr, hrest⟩
    rw [consumeDish_cons]
    rcases List.mem_cons.mp hm with rfl | hmem
    · rw [stockLookup_consumeDish_not_mem _ hr, stockLookup_consumeOne_self]
    · have hne : ing.name ≠ r.name := by
        intro h
        exact hr (h ▸ List.mem_map_of_mem Ingredient.name hmem)
      rw [ih (consumeOne stock r) hrest hmem, stockLookup_consumeOne_ne stock r hne]

theorem consumeDish_nonneg {stock : List Ingredient} (ings : List Ingredient)
    (h : ∀ e ∈ stock, 0 ≤ e.quantity) : ∀ e ∈ consumeDish stock ings, 0 ≤ e.quantity := by
  induction ings generalizing stock with
  | nil => exact h
  | cons r rest ih =>
    rw [consumeDish_cons]
    exact ih (consumeOne_nonneg r h)

theorem stockLookup_filter {stock : List Ingredient} (p : Ingredient → Bool) (n : String)
    (h : nodupNames stock) :
    stockLookup (stock.filter p) n =
      (stockLookup stock n).bind (fun e => if p e then some e else none) := by
  induction stock with
  | nil => rfl
  | cons e rest ih =>
    have h2 : e.name ∉ rest.map Ingredient.name ∧ nodupNames rest := by
      simp only [nodupNames, List.map_cons, List.nodup_cons] at h
      exact h
    rcases h2 with ⟨he, hrest⟩
    rw [List.filter_cons]
    by_cases hp : p e
    · rw [if_pos hp, stockLookup_cons, stockLookup_cons]
      by_cases hn : e.name = n
      · rw [if_pos hn, if_pos hn]
        simp [hp]
      · rw [if_neg hn, if_neg hn]
        exact ih hrest
    · rw [if_neg hp, stockLookup_cons]
      by_cases hn : e.name = n
      · rw [if_pos hn]
        have : n ∉ (rest.filter p).map Ingredient.name := by
          intro hmem
          rcases List.mem_map.mp hmem with ⟨x, hx, hxn⟩
          exact he (hn ▸ hxn ▸ List.mem_map_of_mem Ingredient.name (List.mem_of_mem_filter hx))
        rw [stockLookup_eq_none_of_not_mem this]
        simp [hp]
      · rw [if_neg hn]
        exact ih hrest

theorem canCompleteOrder_iff (st : KitchenStation) (d : String) :
    canCompleteOrder st d = true ↔
      ∃ dr, st.dishes.find? (fun x => x.dish.name == d) = some dr ∧
        ∀ ing ∈ dr.dish.ingredients, ∃ e ∈ st.ingredients_stock,
          e.name = ing.name ∧ ing.required_quantity ≤ e.quantity := by
  unfold canCompleteOrder
  cases hf : st.dishes.find? (fun x => x.dish.name == d) with
  | none => simp
  | some dr =>
    constructor
    · intro hall
      refine ⟨dr, rfl, ?_⟩
      intro ing hing
      have hb := List.all_eq_true.mp hall ing hing
      simp only [ingredientInStock, List.any_eq_true, Bool.and_eq_true, beq_iff_eq,
        decide_eq_true_eq] at hb
      rcases hb with ⟨e, he, h1, h2⟩
      exact ⟨e, he, h1, h2⟩
    · rintro ⟨dr', hdr', hprop⟩
      have : dr = dr' := by injection hdr'
      subst this
      refine List.all_eq_true.mpr fun ing hing => ?_
      simp only [ingredientInStock, List.any_eq_true, Bool.and_eq_true, beq_iff_eq,
        decide_eq_true_eq]
      rcases hprop ing hing with ⟨e, he, hn, hq⟩
      exact ⟨e, he, hn, hq⟩

theorem consumeMatching_cons (d : String) (stock : List Ingredient) (x : DishRef)
    (rest : List DishRef) :
    consumeMatching d stock (x :: rest) =
      consumeMatching d
        (if x.dish.name = d then consumeDish stock x.dish.ingredients else stock) rest := rfl

theorem consumeMatching_of_countP_zero (d : String) (stock : List Ingredient)
    {ds : List DishRef} (h : ds.countP (fun x => x.dish.name == d) = 0) :
    consumeMatching d stock ds = stock := by
  induction ds generalizing stock with
  | nil => rfl
  | cons x rest ih =>
    have hx : ¬ x.dish.name = d := by
      have := List.countP_eq_zero.mp h x (List.mem_cons_self _ _)
      simpa using this
    have hrest : rest.countP (fun x => x.dish.name == d) = 0 := by
      refine List.countP_eq_zero.mpr ?_
      intro a ha
      exact List.countP_eq_zero.mp h a (List.mem_cons_of_mem _ ha)
    rw [consumeMatching_cons, if_neg hx]
    exact ih stock hrest

theorem consumeMatching_unique (d : String) (stock : List Ingredient) {ds : List DishRef}
    {dr : DishRef} (hf : ds.find? (fun x => x.dish.name == d) = some dr)
    (hu : ds.countP (fun x => x.dish.name == d) ≤ 1) :
    consumeMatching d stock ds = consumeDish stock dr.dish.ingredients := by
  induction ds generalizing stock with
  | nil => cases hf
  | cons x rest ih =>
    by_cases hx : x.dish.name = d
    · have hxb : (fun x : DishRef => x.dish.name == d) x = true := by simpa using hx
      rw [@List.find?_cons_of_pos DishRef (fun x => x.dish.name == d) x rest hxb] at hf
      cases hf
      rw [@List.countP_cons_of_pos DishRef (fun x => x.dish.name == d) dr rest hxb] at hu
      have hrest : rest.countP (fun x => x.dish.name == d) = 0 := by omega
      rw [consumeMatching_cons, if_pos hx]
      exact consumeMatching_of_countP_zero d _ hrest
    · have hxb : ¬ (fun x : DishRef => x.dish.name == d) x = true := by simpa using hx
      rw [@List.find?_cons_of_neg DishRef (fun x => x.dish.name == d) x rest hxb] at hf
      rw [@List.countP_cons_of_neg DishRef (fun x => x.dish.name == d) x rest hxb] at hu
      rw [consumeMatching_cons, if_neg hx]
      exact ih stock hf hu

theorem countP_le_one_eq {α : Type} {p : α → Bool} {l : List α} (h : l.countP p ≤ 1)
    {a b : α} (ha : a ∈ l) (hb : b ∈ l) (pa : p a = true) (pb : p b = true) : a = b := by
  have ha' : a ∈ l.filter p := List.mem_filter.mpr ⟨ha, pa⟩
  have hb' : b ∈ l.filter p := List.mem_filter.mpr ⟨hb, pb⟩
  rw [List.countP_eq_length_filter] at h
  cases hl : l.filter p with
  | nil => rw [hl] at ha'; cases ha'
  | cons x xs =>
    rw [hl] at h ha' hb'
    cases xs with
    | nil =>
      have hax := List.mem_singleton.mp ha'
      have hbx := List.mem_singleton.mp hb'
      rw [hax, hbx]
    | cons y ys => simp at h

theorem prepareDish_fst_true {st : KitchenStation} {d : String}
    (h : (prepareDish st d).fst = true) : canCompleteOrder st d = true := by
  by_cases hc : canCompleteOrder st d = true
  · exact hc
  · rw [prepareDish, if_neg hc] at h
    cases h

theorem prepareDish_snd_of_true {st : KitchenStation} {d : String}
    (h : canCompleteOrder st d = true) :
    (prepareDish st d).snd = { st with ingredients_stock :=
      (consumeMatching d st.ingredients_stock st.dishes).filter (fun e => e.quantity != 0) } := by
  rw [prepareDish, if_pos h]

theorem stockLookup_replenishStock_name (stock : List Ingredient) (ing : Ingredient)
    {n : String} (h : ing.name = n) :
    stockLookup (replenishStock stock ing) n =
      some ((stockLookup stock n).elim ing
        (fun e => { e with quantity := e.quantity + ing.quantity })) := by
  subst h
  exact stockLookup_replenishStock_self stock ing

theorem names_consumeMatching (d : String) (stock : List Ingredient) (ds : List DishRef) :
    (consumeMatching d stock ds).map Ingredient.name = stock.map Ingredient.name := by
  induction ds generalizing stock with
  | nil => rfl
  | cons x rest ih =>
    rw [consumeMatching_cons]
    by_cases hx : x.dish.name = d
    · rw [if_pos hx, ih, names_consumeDish]
    · rw [if_neg hx, ih]

theorem consumeMatching_nonneg (d : String) {stock : List Ingredient} (ds : List DishRef)
    (h : ∀ e ∈ stock, 0 ≤ e.quantity) : ∀ e ∈ consumeMatching d stock ds, 0 ≤ e.quantity := by
  induction ds generalizing stock with
  | nil => exact h
  | cons x rest ih =>
    rw [consumeMatching_cons]
    by_cases hx : x.dish.name = d
    · rw [if_pos hx]
      exact ih (consumeDish_nonneg _ h)
    · rw [if_neg hx]
      exact ih h

theorem prepareDish_of_cannot {st : KitchenStation} {d : String}
    (h : ¬ canCompleteOrder st d = true) : prepareDish st d = (false, st) := by
  rw [prepareDish, if_neg h]

theorem prepareSequence_nil (st : KitchenStation) : prepareSequence st [] = st := rfl

theorem prepareSequence_cons (st : KitchenStation) (n : String) (rest : List String) :
    prepareSequence st (n :: rest) = prepareSequence (prepareDish st n).snd rest := rfl

/-! ### Claim theorems -/

/-- C3: whenever `canCompleteOrder` is false, `prepareDish` returns false
and leaves the station (dish roster and ingredient stock) completely
unchanged. -/
theorem C3_prepare_infeasible_no_side_effect (st : KitchenStation) (d : String)
    (h : canCompleteOrder st d = false) : prepareDish st d = (false, st) :=
  prepareDish_of_cannot (by simp [h])

/-- Witness for C3 at a concrete station with no dish named `A`. -/
theorem C3_witness :
    canCompleteOrder ⟨"S", [], []⟩ "A" = false ∧
    prepareDish ⟨"S", [], []⟩ "A" = (false, ⟨"S", [], []⟩) :=
  ⟨by decide, C3_prepare_infeasible_no_side_effect ⟨"S", [], []⟩ "A" (by decide)⟩

/-- C6: replenishing ingredient name `n` twice with quantities `q1` then
`q2` leaves the same total quantity under `n` as one replenish with
`q1 + q2`; on the matched path only the quantity accumulates (the incoming
entry's `required_quantity` and `price` are ignored) and entries under
other names are untouched. -/
theorem C6_replenish_additive (st : KitchenStation) (n : String) (i1 i2 ic : Ingredient)
    (h1 : i1.name = n) (h2 : i2.name = n) (hc : ic.name = n)
    (hq : ic.quantity = i1.quantity + i2.quantity) :
    ((stockLookup (replenishStationIngredients (replenishStationIngredients st i1) i2).ingredients_stock n).map
        Ingredient.quantity
      = (stockLookup (replenishStationIngredients st ic).ingredients_stock n).map
        Ingredient.quantity) ∧
    (∀ e, stockLookup st.ingredients_stock n = some e →
      stockLookup (replenishStationIngredients st i1).ingredients_stock n
        = some { e with quantity := e.quantity + i1.quantity }) ∧
    (∀ m, m ≠ n → stockLookup (replenishStationIngredients st i1).ingredients_stock m
        = stockLookup st.ingredients_stock m) := by
  refine ⟨?_, ?_, ?_⟩
  · show (stockLookup (replenishStock (replenishStock st.ingredients_stock i1) i2) n).map _
      = (stockLookup (replenishStock st.ingredients_stock ic) n).map _
    rw [stockLookup_replenishStock_name _ i2 h2, stockLookup_replenishStock_name _ i1 h1,
      stockLookup_replenishStock_name _ ic hc]
    cases hsl : stockLookup st.ingredients_stock n with
    | none => simp [hq]
    | some e => simp [hq]; ring
  · intro e he
    show stockLookup (replenishStock st.ingredients_stock i1) n = _
    rw [stockLookup_replenishStock_name _ i1 h1, he]
    rfl
  · intro m hm
    show stockLookup (replenishStock st.ingredients_stock i1) m = _
    exact stockLookup_replenishStock_ne _ i1 (h1 ▸ hm)

/-- Witness for C6 at a concrete station and concrete ingredients. -/
theorem C6_witness :
    (Ingredient.mk "T" 2 5 7).name = "T" ∧ (Ingredient.mk "T" 3 9 9).name = "T" ∧
    (Ingredient.mk "T" 5 0 0).name = "T" ∧
    (Ingredient.mk "T" 5 0 0).quantity =
      (Ingredient.mk "T" 2 5 7).quantity + (Ingredient.mk "T" 3 9 9).quantity ∧
    (((stockLookup (replenishStationIngredients (replenishStationIngredients
          ⟨"S", [], [⟨"T", 1, 4, 4⟩]⟩ ⟨"T", 2, 5, 7⟩) ⟨"T", 3, 9, 9⟩).ingredients_stock "T").map
        Ingredient.quantity
      = (stockLookup (replenishStationIngredients
          ⟨"S", [], [⟨"T", 1, 4, 4⟩]⟩ ⟨"T", 5, 0, 0⟩).ingredients_stock "T").map
        Ingredient.quantity) ∧
    (∀ e, stockLookup (KitchenStation.mk "S" [] [⟨"T", 1, 4, 4⟩]).ingredients_stock "T" = some e →
      stockLookup (replenishStationIngredients
          ⟨"S", [], [⟨"T", 1, 4, 4⟩]⟩ ⟨"T", 2, 5, 7⟩).ingredients_stock "T"
        = some { e with quantity := e.quantity + (Ingredient.mk "T" 2 5 7).quantity }) ∧
    (∀ m, m ≠ "T" → stockLookup (replenishStationIngredients
          ⟨"S", [], [⟨"T", 1, 4, 4⟩]⟩ ⟨"T", 2, 5, 7⟩).ingredients_stock m
        = stockLookup (KitchenStation.mk "S" [] [⟨"T", 1, 4, 4⟩]).ingredients_stock m)) :=
  ⟨rfl, rfl, rfl, by decide,
    C6_replenish_additive ⟨"S", [], [⟨"T", 1, 4, 4⟩]⟩ "T"
      ⟨"T", 2, 5, 7⟩ ⟨"T", 3, 9, 9⟩ ⟨"T", 5, 0, 0⟩ rfl rfl rfl (by decide)⟩

/-- Every single `prepareDish` call keeps all stock quantities
non-negative. -/
theorem prepareDish_nonneg {st : KitchenStation} (d : String)
    (h : ∀ e ∈ st.ingredients_stock, 0 ≤ e.quantity) :
    ∀ e ∈ ((prepareDish st d).snd).ingredients_stock, 0 ≤ e.quantity := by
  by_cases hc : canCompleteOrder st d = true
  · rw [prepareDish_snd_of_true hc]
    intro e he
    exact consumeMatching_nonneg d st.dishes h e (List.mem_of_mem_filter he)
  · rw [prepareDish_of_cannot hc]
    exact h

/-- C7: if every stock entry of a station is non-negative, then after any
sequence of `prepareDish` calls every remaining stock entry is still
non-negative. -/
theorem C7_stock_never_negative (st : KitchenStation) (names : List String)
    (h : ∀ e ∈ st.ingredients_stock, 0 ≤ e.quantity) :
    ∀ e ∈ (prepareSequence st names).ingredients_stock, 0 ≤ e.quantity := by
  induction names generalizing st with
  | nil => exact h
  | cons n rest ih =>
    rw [prepareSequence_cons]
    exact ih _ (prepareDish_nonneg n h)

/-- Witness for C7 on the section 8 station with two preparation calls. -/
theorem C7_witness :
    (∀ e ∈ exStGrill.ingredients_stock, 0 ≤ e.quantity) ∧
    (∀ e ∈ (prepareSequence exStGrill ["Sandwich", "Sandwich"]).ingredients_stock,
      0 ≤ e.quantity) :=
  ⟨by decide, C7_stock_never_negative exStGrill ["Sandwich", "Sandwich"] (by decide)⟩

/-- C8: the no-duplicate-names invariant of a station's stock is preserved
by `replenishStationIngredients` and by `prepareDish`. -/
theorem C8_nodup_names_preserved (st : KitchenStation) (i : Ingredient) (d : String)
    (h : nodupNames st.ingredients_stock) :
    nodupNames (replenishStationIngredients st i).ingredients_stock ∧
    nodupNames ((prepareDish st d).snd).ingredients_stock := by
  constructor
  · exact nodupNames_replenishStock i h
  · by_cases hc : canCompleteOrder st d = true
    · rw [prepareDish_snd_of_true hc]
      show ((consumeMatching d st.ingredients_stock st.dishes).filter _).map Ingredient.name |>.Nodup
      have hsub : ((consumeMatching d st.ingredients_stock st.dishes).filter
          (fun e => e.quantity != 0)).map Ingredient.name |>.Sublist
          ((consumeMatching d st.ingredients_stock st.dishes).map Ingredient.name) :=
        List.Sublist.map _ (List.filter_sublist _)
      refine List.Nodup.sublist hsub ?_
      rw [names_consumeMatching]
      exact h
    · rw [prepareDish_of_cannot hc]
      exact h

/-- Witness for C8 at the section 8 station. -/
theorem C8_witness :
    nodupNames exStGrill.ingredients_stock ∧
    (nodupNames (replenishStationIngredients exStGrill ⟨"Salt", 1, 0, 0⟩).ingredients_stock ∧
     nodupNames ((prepareDish exStGrill "Sandwich").snd).ingredients_stock) :=
  ⟨by decide, C8_nodup_names_preserved exStGrill ⟨"Salt", 1, 0, 0⟩ "Sandwich" (by decide)⟩

/-- C2 (counterexample): with two distinct dish references both named `A`,
the source checks only the first name match, so `canCompleteOrder` is false
although some dish named `A` has all its requirements stocked. -/
theorem C2_counterexample :
    ¬ (canCompleteOrder exStDupDish "A" = true ↔ canCompleteSpec exStDupDish "A") := by
  decide

/-- C2 (amended): provided at most one dish on the roster carries the name
`d`, `canCompleteOrder` returns true exactly when a dish named `d` is on
the roster and, for every ingredient it requires, the stock has an entry of
the same name with at least the required quantity; with no dish named `d`
it returns false. -/
theorem C2_canComplete_iff (st : KitchenStation) (d : String)
    (hu : st.dishes.countP (fun x => x.dish.name == d) ≤ 1) :
    canCompleteOrder st d = true ↔ canCompleteSpec st d := by
  rw [canCompleteOrder_iff]
  constructor
  · rintro ⟨dr, hf, hcov⟩
    have hname : dr.dish.name = d := by simpa using List.find?_some hf
    exact ⟨dr, List.mem_of_find?_eq_some hf, hname, hcov⟩
  · rintro ⟨dr', hmem, hname, hcov⟩
    cases hf : st.dishes.find? (fun x => x.dish.name == d) with
    | none =>
      exfalso
      have := List.find?_eq_none.mp hf dr' hmem
      simp [hname] at this
    | some dr0 =>
      have h0mem := List.mem_of_find?_eq_some hf
      have heq : dr0 = dr' :=
        countP_le_one_eq hu h0mem hmem
          (@List.find?_some DishRef (fun x => x.dish.name == d) dr0 st.dishes hf)
          (by simpa using hname)
      subst heq
      exact ⟨dr0, rfl, hcov⟩

/-- Witness for the amended C2 at the section 8 station. -/
theorem C2_witness :
    exStGrill.dishes.countP (fun x => x.dish.name == "Sandwich") ≤ 1 ∧
    (canCompleteOrder exStGrill "Sandwich" = true ↔ canCompleteSpec exStGrill "Sandwich") :=
  ⟨by decide, C2_canComplete_iff exStGrill "Sandwich" (by decide)⟩

/-- C1 (counterexample): a dish whose requirement list names `T` twice is
prepared successfully, but the `T` stock entry is reduced by the SUM of the
two required amounts (6 - 2 - 3 = 1), not by the single requirement's
amount 2. -/
theorem C1_counterexample :
    (prepareDish exStDupReq "A").fst = true ∧
    exStDupReq.dishes.find? (fun x => x.dish.name == "A") = some exDupReqDish ∧
    (⟨"T", 0, 2, 0⟩ : Ingredient) ∈ exDupReqDish.dish.ingredients ∧
    stockLookup exStDupReq.ingredients_stock "T" = some ⟨"T", 6, 0, 0⟩ ∧
    stockLookup ((prepareDish exStDupReq "A").snd).ingredients_stock "T"
      = some ⟨"T", 1, 0, 0⟩ ∧
    (Ingredient.mk "T" 1 0 0).quantity ≠
      (Ingredient.mk "T" 6 0 0).quantity - (Ingredient.mk "T" 0 2 0).required_quantity := by
  decide

/-- C1 (amended): provided at most one roster dish carries the name `d` and
that dish's requirement names are pairwise distinct (and the stock obeys
its name-uniqueness invariant), a successful `prepareDish d` reduces each
required ingredient's stock entry by exactly the required quantity,
removing the entry when it reaches exactly 0; no zero-quantity entry
remains. -/
theorem C1_prepare_consumes_exactly (st : KitchenStation) (d : String) (dr : DishRef)
    (hf : st.dishes.find? (fun x => x.dish.name == d) = some dr)
    (hu : st.dishes.countP (fun x => x.dish.name == d) ≤ 1)
    (hing : (dr.dish.ingredients.map Ingredient.name).Nodup)
    (hstock : nodupNames st.ingredients_stock)
    (hp : (prepareDish st d).fst = true) :
    (∀ ing ∈ dr.dish.ingredients,
      ∃ e, stockLookup st.ingredients_stock ing.name = some e ∧
        ing.required_quantity ≤ e.quantity ∧
        (if e.quantity = ing.required_quantity
         then stockLookup ((prepareDish st d).snd).ingredients_stock ing.name = none
         else stockLookup ((prepareDish st d).snd).ingredients_stock ing.name
            = some { e with quantity := e.quantity - ing.required_quantity })) ∧
    (∀ e ∈ ((prepareDish st d).snd).ingredients_stock, e.quantity ≠ 0) := by
  have hc := prepareDish_fst_true hp
  rcases (canCompleteOrder_iff st d).mp hc with ⟨dr', hf', hcov⟩
  rw [hf] at hf'
  have hdd : dr = dr' := by simpa using hf'
  subst hdd
  have hsnd := prepareDish_snd_of_true hc
  have hpost : ((prepareDish st d).snd).ingredients_stock
      = (consumeDish st.ingredients_stock dr.dish.ingredients).filter
          (fun e => e.quantity != 0) := by
    rw [hsnd]
    show (consumeMatching d st.ingredients_stock st.dishes).filter _ = _
    rw [consumeMatching_unique d _ hf hu]
  constructor
  · intro ing hingmem
    rcases hcov ing hingmem with ⟨e, he, hname, hq⟩
    have hle : stockLookup st.ingredients_stock ing.name = some e := by
      rw [← hname]
      exact stockLookup_of_mem_nodup hstock he
    refine ⟨e, hle, hq, ?_⟩
    have hnd2 : nodupNames (consumeDish st.ingredients_stock dr.dish.ingredients) :=
      nodupNames_consumeDish _ hstock
    by_cases heq : e.quantity = ing.required_quantity
    · rw [if_pos heq, hpost, stockLookup_filter _ _ hnd2,
        stockLookup_consumeDish_mem _ hing hingmem, hle]
      simp [heq]
    · rw [if_neg heq, hpost, stockLookup_filter _ _ hnd2,
        stockLookup_consumeDish_mem _ hing hingmem, hle]
      have hpos : ¬ (e.quantity - ing.required_quantity ≤ 0) := by omega
      have hne0 : (e.quantity - ing.required_quantity) ≠ 0 := by omega
      simp [hpos, hne0]
      omega
  · intro e he
    rw [hpost] at he
    have := List.of_mem_filter he
    simpa using this

/-- Witness for the amended C1 at the section 8 station, where the tomato
stock reaches exactly 0 and is removed. -/
theorem C1_witness :
    exStGrill.dishes.find? (fun x => x.dish.name == "Sandwich") = some exGrillDish ∧
    exStGrill.dishes.countP (fun x => x.dish.name == "Sandwich") ≤ 1 ∧
    (exGrillDish.dish.ingredients.map Ingredient.name).Nodup ∧
    nodupNames exStGrill.ingredients_stock ∧
    (prepareDish exStGrill "Sandwich").fst = true ∧
    ((∀ ing ∈ exGrillDish.dish.ingredients,
      ∃ e, stockLookup exStGrill.ingredients_stock ing.name = some e ∧
        ing.required_quantity ≤ e.quantity ∧
        (if e.quantity = ing.required_quantity
         then stockLookup ((prepareDish exStGrill "Sandwich").snd).ingredients_stock ing.name
            = none
         else stockLookup ((prepareDish exStGrill "Sandwich").snd).ingredients_stock ing.name
            = some { e with quantity := e.quantity - ing.required_quantity })) ∧
    (∀ e ∈ ((prepareDish exStGrill "Sandwich").snd).ingredients_stock, e.quantity ≠ 0)) :=
  ⟨by decide, by decide, by decide, by decide, by decide,
    C1_prepare_consumes_exactly exStGrill "Sandwich" exGrillDish
      (by decide) (by decide) (by decide) (by decide) (by decide)⟩

/-! ### Helper lemmas about the station manager -/

theorem findStation_cons (s : KitchenStation) (rest : StationManager) (name : String) :
    findStation (s :: rest) name =
      if s.station_name = name then some s else findStation rest name := by
  by_cases h : s.station_name = name
  · simp [findStation, List.find?_cons_of_pos, h]
  · simp [findStation, List.find?_cons_of_neg, h]

theorem findStationIdx_cons (s : KitchenStation) (rest : StationManager) (name : String) :
    findStationIdx (s :: rest) name =
      if s.station_name = name then some 0
      else (findStationIdx rest name).map (fun i => i + 1) := by
  by_cases h : s.station_name = name
  · simp [findStationIdx, List.findIdx?_cons, h]
  · simp only [findStationIdx, List.findIdx?_cons, beq_iff_eq, if_neg h, decide_eq_true_eq]
    exact List.findIdx?_succ

theorem findStation_idx_spec (mgr : StationManager) (name : String) :
    (findStationIdx mgr name = none ∧ findStation mgr name = none) ∨
    (∃ i s, findStationIdx mgr name = some i ∧ findStation mgr name = some s ∧
      mgr[i]? = some s ∧ s.station_name = name ∧
      mgr.eraseIdx i = mgr.eraseP (fun t => t.station_name == name)) := by
  induction mgr with
  | nil => exact Or.inl ⟨rfl, rfl⟩
  | cons x rest ih =>
    by_cases hx : x.station_name = name
    · refine Or.inr ⟨0, x, ?_, ?_, by simp, hx, ?_⟩
      · rw [findStationIdx_cons, if_pos hx]
      · rw [findStation_cons, if_pos hx]
      · rw [List.eraseIdx_cons_zero, List.eraseP_cons_of_pos (by simpa using hx)]
    · rcases ih with ⟨h1, h2⟩ | ⟨i, s, h1, h2, h3, h4, h5⟩
      · refine Or.inl ⟨?_, ?_⟩
        · rw [findStationIdx_cons, if_neg hx, h1]
          rfl
        · rw [findStation_cons, if_neg hx, h2]
      · refine Or.inr ⟨i + 1, s, ?_, ?_, ?_, h4, ?_⟩
        · rw [findStationIdx_cons, if_neg hx, h1]
          rfl
        · rw [findStation_cons, if_neg hx, h2]
        · rw [List.getElem?_cons_succ]
          exact h3
        · rw [List.eraseIdx_cons_succ, List.eraseP_cons_of_neg (by simpa using hx), h5]

theorem removeStation_eq (mgr : StationManager) (name : String) :
    removeStation mgr name =
      match findStation mgr name with
      | some _ => (true, mgr.eraseP (fun t => t.station_name == name))
      | none => (false, mgr) := by
  rcases findStation_idx_spec mgr name with ⟨h1, h2⟩ | ⟨i, s, h1, h2, h3, h4, h5⟩
  · simp only [removeStation, h1, h2]
  · simp only [removeStation, h1, h2, h5]

theorem moveStationToFront_eq (mgr : StationManager) (name : String) :
    moveStationToFront mgr name =
      match findStation mgr name with
      | some s => (true, s :: mgr.eraseP (fun t => t.station_name == name))
      | none => (false, mgr) := by
  rcases findStation_idx_spec mgr name with ⟨h1, h2⟩ | ⟨i, s, h1, h2, h3, h4, h5⟩
  · simp only [moveStationToFront, h1, h2]
  · simp only [moveStationToFront, h1, h2, h3, h5]

/-- C9: a successful `moveStationToFront` places the (first) station with
the name at index 0 and keeps every other station in its previous relative
order; with no such station it returns false and changes nothing. -/
theorem C9_moveToFront (mgr : StationManager) (X : String) :
    (findStation mgr X = none → moveStationToFront mgr X = (false, mgr)) ∧
    (∀ s, findStation mgr X = some s →
      s.station_name = X ∧
      moveStationToFront mgr X = (true, s :: mgr.eraseP (fun t => t.station_name == X))) := by
  constructor
  · intro h
    rw [moveStationToFront_eq, h]
  · intro s h
    rcases findStation_idx_spec mgr X with ⟨h1, h2⟩ | ⟨i, s', h1, h2, h3, h4, h5⟩
    · rw [h] at h2
      cases h2
    · rw [h] at h2
      have hs : s = s' := by simpa using h2
      subst hs
      exact ⟨h4, by rw [moveStationToFront_eq, h]⟩

/-- Witness for C9 on a three-station collection: the first of the two
stations named `b` moves to the front. -/
theorem C9_witness :
    findStation exMgrDupB "b"
      = some ⟨"b", [⟨5, ⟨"B", [], 0, 0, CuisineType.OTHER⟩⟩], [⟨"T", 2, 0, 0⟩]⟩ ∧
    ((KitchenStation.mk "b" [⟨5, ⟨"B", [], 0, 0, CuisineType.OTHER⟩⟩]
        [⟨"T", 2, 0, 0⟩]).station_name = "b" ∧
      moveStationToFront exMgrDupB "b"
        = (true, ⟨"b", [⟨5, ⟨"B", [], 0, 0, CuisineType.OTHER⟩⟩], [⟨"T", 2, 0, 0⟩]⟩ ::
            exMgrDupB.eraseP (fun t => t.station_name == "b"))) :=
  ⟨by decide,
    (C9_moveToFront exMgrDupB "b").2
      ⟨"b", [⟨5, ⟨"B", [], 0, 0, CuisineType.OTHER⟩⟩], [⟨"T", 2, 0, 0⟩]⟩ (by decide)⟩

/-- C5: merging a station with itself returns false, merging with a missing
name returns false, and in both cases the collection (its sequence and
every station in it) is completely unchanged. -/
theorem C5_merge_degenerate (mgr : StationManager) (A X : String) :
    mergeStations mgr A A = (false, mgr) ∧
    (findStation mgr X = none → mergeStations mgr A X = (false, mgr)) := by
  constructor
  · cases h : findStation mgr A with
    | none => simp only [mergeStations, h]
    | some s => simp [mergeStations, h]
  · intro h
    cases hA : findStation mgr A with
    | none => simp only [mergeStations, hA, h]
    | some s => simp only [mergeStations, hA, h]

/-- Witness for C5 on a one-station collection and the missing name `zz`. -/
theorem C5_witness :
    mergeStations [⟨"a", [], [⟨"T", 1, 0, 0⟩]⟩] "a" "a"
      = (false, [⟨"a", [], [⟨"T", 1, 0, 0⟩]⟩]) ∧
    findStation [(⟨"a", [], [⟨"T", 1, 0, 0⟩]⟩ : KitchenStation)] "zz" = none ∧
    mergeStations [⟨"a", [], [⟨"T", 1, 0, 0⟩]⟩] "a" "zz"
      = (false, [⟨"a", [], [⟨"T", 1, 0, 0⟩]⟩]) :=
  ⟨(C5_merge_degenerate [⟨"a", [], [⟨"T", 1, 0, 0⟩]⟩] "a" "zz").1,
   by decide,
   (C5_merge_degenerate [⟨"a", [], [⟨"T", 1, 0, 0⟩]⟩] "a" "zz").2 (by decide)⟩

/-! ### Lemmas about merging stations -/

theorem mergeStations_true_elim {mgr mgr' : StationManager} {A B : String}
    (hm : mergeStations mgr A B = (true, mgr')) :
    ∃ s1 s2, findStation mgr A = some s1 ∧ findStation mgr B = some s2 ∧ A ≠ B ∧
      mgr' = (removeStation (setFirstNamed mgr A (mergeInto s1 s2)) B).snd := by
  cases hA : findStation mgr A with
  | none => simp [mergeStations, hA] at hm
  | some s1 =>
    cases hB : findStation mgr B with
    | none => simp [mergeStations, hA, hB] at hm
    | some s2 =>
      by_cases hAB : A = B
      · simp [mergeStations, hA, hB, hAB] at hm
      · refine ⟨s1, s2, rfl, rfl, hAB, ?_⟩
        simp only [mergeStations, hA, hB, if_neg hAB] at hm
        have := congrArg Prod.snd hm
        simpa using this.symm

theorem assignDish_snd_name (acc : KitchenStation) (d : DishRef) :
    ((assignDishToStation acc d).snd).station_name = acc.station_name := by
  unfold assignDishToStation
  split <;> rfl

theorem assignDish_snd_stock (acc : KitchenStation) (d : DishRef) :
    ((assignDishToStation acc d).snd).ingredients_stock = acc.ingredients_stock := by
  unfold assignDishToStation
  split <;> rfl

theorem assignDish_snd_mem {acc : KitchenStation} {d0 : DishRef} (d : DishRef)
    (h : d0 ∈ acc.dishes) : d0 ∈ ((assignDishToStation acc d).snd).dishes := by
  unfold assignDishToStation
  split
  · exact h
  · exact List.mem_append_left _ h

theorem assignDish_snd_covers (acc : KitchenStation) (d : DishRef) :
    ∃ dr ∈ ((assignDishToStation acc d).snd).dishes, dr.id = d.id := by
  by_cases hany : acc.dishes.any (fun a => a.id == d.id) = true
  · rcases List.any_eq_true.mp hany with ⟨a, ha, hid⟩
    rw [assignDishToStation, if_pos hany]
    exact ⟨a, ha, by simpa using hid⟩
  · rw [assignDishToStation, if_neg hany]
    exact ⟨d, List.mem_append_right _ (List.mem_singleton.mpr rfl), rfl⟩

theorem dishFold_name (ds : List DishRef) (acc : KitchenStation) :
    ((ds.foldl (fun acc d => (assignDishToStation acc d).snd) acc)).station_name
      = acc.station_name := by
  induction ds generalizing acc with
  | nil => rfl
  | cons d rest ih =>
    rw [List.foldl_cons, ih, assignDish_snd_name]

theorem dishFold_stock (ds : List DishRef) (acc : KitchenStation) :
    ((ds.foldl (fun acc d => (assignDishToStation acc d).snd) acc)).ingredients_stock
      = acc.ingredients_stock := by
  induction ds generalizing acc with
  | nil => rfl
  | cons d rest ih =>
    rw [List.foldl_cons, ih, assignDish_snd_stock]

theorem dishFold_mem {ds : List DishRef} {acc : KitchenStation} {d0 : DishRef}
    (h : d0 ∈ acc.dishes) :
    d0 ∈ ((ds.foldl (fun acc d => (assignDishToStation acc d).snd) acc)).dishes := by
  induction ds generalizing acc with
  | nil => exact h
  | cons d rest ih =>
    rw [List.foldl_cons]
    exact ih (assignDish_snd_mem d h)

theorem dishFold_covers {ds : List DishRef} (acc : KitchenStation) {d : DishRef} (h : d ∈ ds) :
    ∃ dr ∈ ((ds.foldl (fun acc d => (assignDishToStation acc d).snd) acc)).dishes,
      dr.id = d.id := by
  induction ds generalizing acc with
  | nil => cases h
  | cons x rest ih =>
    rw [List.foldl_cons]
    rcases List.mem_cons.mp h with rfl | hmem
    · rcases assignDish_snd_covers acc d with ⟨dr, hdr, hid⟩
      exact ⟨dr, dishFold_mem hdr, hid⟩
    · exact ih _ hmem

theorem replenishFold_name (entries : List Ingredient) (s : KitchenStation) :
    ((entries.foldl replenishStationIngredients s)).station_name = s.station_name := by
  induction entries generalizing s with
  | nil => rfl
  | cons i rest ih =>
    rw [List.foldl_cons, ih]
    rfl

theorem replenishFold_dishes (entries : List Ingredient) (s : KitchenStation) :
    ((entries.foldl replenishStationIngredients s)).dishes = s.dishes := by
  induction entries generalizing s with
  | nil => rfl
  | cons i rest ih =>
    rw [List.foldl_cons, ih]
    rfl

theorem sumQuantity_replenishFold (entries : List Ingredient) (s : KitchenStation) (n : String) :
    sumQuantity ((entries.foldl replenishStationIngredients s)).ingredients_stock n
      = sumQuantity s.ingredients_stock n + sumQuantity entries n := by
  induction entries generalizing s with
  | nil =>
    simp [sumQuantity]
  | cons i rest ih =>
    rw [List.foldl_cons, ih]
    simp only [sumQuantity]
    rw [show (replenishStationIngredients s i).ingredients_stock
        = replenishStock s.ingredients_stock i from rfl]
    rw [sumQuantity_replenishStock]
    ring

theorem mergeInto_name (s1 s2 : KitchenStation) :
    (mergeInto s1 s2).station_name = s1.station_name := by
  rw [mergeInto, replenishFold_name, dishFold_name]

theorem mergeInto_dishes_left {s1 s2 : KitchenStation} {d0 : DishRef}
    (h : d0 ∈ s1.dishes) : d0 ∈ (mergeInto s1 s2).dishes := by
  rw [mergeInto, replenishFold_dishes]
  exact dishFold_mem h

theorem mergeInto_dishes_right {s1 s2 : KitchenStation} {d : DishRef}
    (h : d ∈ s2.dishes) : ∃ dr ∈ (mergeInto s1 s2).dishes, dr.id = d.id := by
  rw [mergeInto, replenishFold_dishes]
  exact dishFold_covers s1 h

theorem mergeInto_sumQuantity (s1 s2 : KitchenStation) (n : String) :
    sumQuantity (mergeInto s1 s2).ingredients_stock n
      = sumQuantity s1.ingredients_stock n + sumQuantity s2.ingredients_stock n := by
  rw [mergeInto, sumQuantity_replenishFold, dishFold_stock]

theorem setFirstNamed_eq_set {mgr : StationManager} {A : String} {i : Nat}
    (h1 : findStationIdx mgr A = some i) (v : KitchenStation) :
    setFirstNamed mgr A v = mgr.set i v := by
  induction mgr generalizing i with
  | nil => simp [findStationIdx] at h1
  | cons x rest ih =>
    rw [findStationIdx_cons] at h1
    by_cases hx : x.station_name = A
    · rw [if_pos hx] at h1
      have h0 : i = 0 := by simpa using h1.symm
      subst h0
      rw [setFirstNamed, if_pos hx, List.set_cons_zero]
    · rw [if_neg hx] at h1
      cases hj : findStationIdx rest A with
      | none =>
        rw [hj] at h1
        cases h1
      | some j =>
        rw [hj] at h1
        have hij : i = j + 1 := by simpa using h1.symm
        subst hij
        rw [setFirstNamed, if_neg hx, List.set_cons_succ, ih hj]

theorem names_setFirstNamed (mgr : StationManager) (A : String) {v : KitchenStation}
    (hv : v.station_name = A) :
    (setFirstNamed mgr A v).map KitchenStation.station_name
      = mgr.map KitchenStation.station_name := by
  induction mgr with
  | nil => rfl
  | cons x rest ih =>
    by_cases hx : x.station_name = A
    · rw [setFirstNamed, if_pos hx, List.map_cons, List.map_cons, hv, hx]
    · rw [setFirstNamed, if_neg hx, List.map_cons, List.map_cons, ih]

theorem findStationIdx_eq_of_names {l1 l2 : StationManager}
    (h : l1.map KitchenStation.station_name = l2.map KitchenStation.station_name)
    (name : String) : findStationIdx l1 name = findStationIdx l2 name := by
  unfold findStationIdx
  rw [show (fun s : KitchenStation => s.station_name == name)
      = ((fun n => n == name) ∘ KitchenStation.station_name) from rfl,
    ← List.findIdx?_map, ← List.findIdx?_map, h]

/-- C10: a successful merge leaves the station sequence equal to the
pre-merge sequence with only the first station named `B` deleted; the
station at `A`'s position keeps its name (only its contents change) and
every other station is untouched, in its previous relative order. -/
theorem C10_merge_sequence_frame (mgr mgr' : StationManager) (A B : String)
    (hm : mergeStations mgr A B = (true, mgr')) :
    ∃ iA iB s, findStationIdx mgr A = some iA ∧ findStationIdx mgr B = some iB ∧
      iA ≠ iB ∧ s.station_name = A ∧ mgr' = (mgr.set iA s).eraseIdx iB := by
  rcases mergeStations_true_elim hm with ⟨s1, s2, hA, hB, hAB, hrest⟩
  rcases findStation_idx_spec mgr A with ⟨h1A, h2A⟩ | ⟨iA, sA, h1A, h2A, h3A, h4A, h5A⟩
  · rw [hA] at h2A
    cases h2A
  rcases findStation_idx_spec mgr B with ⟨h1B, h2B⟩ | ⟨iB, sB, h1B, h2B, h3B, h4B, h5B⟩
  · rw [hB] at h2B
    cases h2B
  have hsA : sA = s1 := by
    rw [hA] at h2A
    have := h2A
    simp only [Option.some.injEq] at this
    exact this.symm
  have hsB : sB = s2 := by
    rw [hB] at h2B
    have := h2B
    simp only [Option.some.injEq] at this
    exact this.symm
  have hset : setFirstNamed mgr A (mergeInto s1 s2) = mgr.set iA (mergeInto s1 s2) :=
    setFirstNamed_eq_set h1A _
  have hnameA : (mergeInto s1 s2).station_name = A := by
    rw [mergeInto_name, ← hsA, h4A]
  have hnames : (mgr.set iA (mergeInto s1 s2)).map KitchenStation.station_name
      = mgr.map KitchenStation.station_name := by
    rw [← hset]
    exact names_setFirstNamed mgr A hnameA
  have hidx : findStationIdx (mgr.set iA (mergeInto s1 s2)) B = some iB := by
    rw [findStationIdx_eq_of_names hnames, h1B]
  refine ⟨iA, iB, mergeInto s1 s2, h1A, h1B, ?_, hnameA, ?_⟩
  · intro hEq
    apply hAB
    rw [hEq] at h3A
    rw [h3A] at h3B
    have hss : sA = sB := by simpa using h3B
    rw [← h4A, ← h4B, hss]
  · rw [hrest, hset]
    simp only [removeStation, hidx]

/-- Witness for C10 on a successful two-station merge. -/
theorem C10_witness :
    mergeStations exMgrPair "a" "b"
      = (true, [⟨"a", [⟨6, ⟨"D", [], 0, 0, CuisineType.OTHER⟩⟩,
                       ⟨7, ⟨"E", [], 0, 0, CuisineType.OTHER⟩⟩],
                 [⟨"Tomato", 5, 0, 0⟩, ⟨"Lettuce", 3, 0, 0⟩]⟩]) ∧
    (∃ iA iB s, findStationIdx exMgrPair "a" = some iA ∧
      findStationIdx exMgrPair "b" = some iB ∧ iA ≠ iB ∧ s.station_name = "a" ∧
      [(⟨"a", [⟨6, ⟨"D", [], 0, 0, CuisineType.OTHER⟩⟩,
               ⟨7, ⟨"E", [], 0, 0, CuisineType.OTHER⟩⟩],
         [⟨"Tomato", 5, 0, 0⟩, ⟨"Lettuce", 3, 0, 0⟩]⟩ : KitchenStation)]
        = (exMgrPair.set iA s).eraseIdx iB) :=
  ⟨by decide,
    C10_merge_sequence_frame exMgrPair
      [⟨"a", [⟨6, ⟨"D", [], 0, 0, CuisineType.OTHER⟩⟩,
              ⟨7, ⟨"E", [], 0, 0, CuisineType.OTHER⟩⟩],
        [⟨"Tomato", 5, 0, 0⟩, ⟨"Lettuce", 3, 0, 0⟩]⟩] "a" "b" (by decide)⟩

theorem find?_eraseP_of_countP_le_one {α : Type} {p : α → Bool} {l : List α}
    (h : l.countP p ≤ 1) : (l.eraseP p).find? p = none := by
  induction l with
  | nil => rfl
  | cons x rest ih =>
    by_cases hx : p x = true
    · rw [List.eraseP_cons_of_pos hx]
      rw [List.countP_cons_of_pos _ _ hx] at h
      have hz : rest.countP p = 0 := by omega
      exact List.find?_eq_none.mpr fun a ha => by
        simpa using List.countP_eq_zero.mp hz a ha
    · rw [List.eraseP_cons_of_neg hx, List.find?_cons_of_neg _ hx]
      rw [List.countP_cons_of_neg _ _ hx] at h
      exact ih h

theorem findStation_eraseP_ne (mgr : StationManager) {A B : String} (h : A ≠ B) :
    findStation (mgr.eraseP (fun t => t.station_name == B)) A = findStation mgr A := by
  induction mgr with
  | nil => rfl
  | cons x rest ih =>
    by_cases hx : x.station_name = B
    · rw [List.eraseP_cons_of_pos (by simpa using hx)]
      rw [findStation_cons, if_neg (fun hA => h (hA.symm.trans hx))]
    · rw [List.eraseP_cons_of_neg (by simpa using hx), findStation_cons, findStation_cons]
      by_cases hA : x.station_name = A
      · rw [if_pos hA, if_pos hA]
      · rw [if_neg hA, if_neg hA, ih]

theorem findStation_setFirstNamed_self {mgr : StationManager} {A : String}
    {s : KitchenStation} (hA : findStation mgr A = some s) (v : KitchenStation)
    (hv : v.station_name = A) : findStation (setFirstNamed mgr A v) A = some v := by
  induction mgr with
  | nil => simp [findStation] at hA
  | cons x rest ih =>
    rw [findStation_cons] at hA
    by_cases hx : x.station_name = A
    · rw [setFirstNamed, if_pos hx, findStation_cons, if_pos hv]
    · rw [if_neg hx] at hA
      rw [setFirstNamed, if_neg hx, findStation_cons, if_neg hx]
      exact ih hA

theorem countP_station_names (l : StationManager) (B : String) :
    l.countP (fun s => s.station_name == B)
      = (l.map KitchenStation.station_name).countP (fun n => n == B) := by
  rw [List.countP_map]
  rfl

/-- C4 (amended): after a successful merge of distinct stations `A` and
`B`, provided at most one station in the collection is named `B`:
`findStation B` finds nothing, the surviving station named `A` has a roster
that is a superset (by reference identity) of both pre-merge rosters, and
its stock carries, under every ingredient name, the sum of the two
pre-merge quantities. -/
theorem C4_merge_combines (mgr mgr' : StationManager) (A B : String)
    (hm : mergeStations mgr A B = (true, mgr'))
    (hB1 : mgr.countP (fun s => s.station_name == B) ≤ 1) :
    findStation mgr' B = none ∧
    ∃ sA sB sA', findStation mgr A = some sA ∧ findStation mgr B = some sB ∧
      findStation mgr' A = some sA' ∧
      (∀ dr ∈ sA.dishes, ∃ dr' ∈ sA'.dishes, dr'.id = dr.id) ∧
      (∀ dr ∈ sB.dishes, ∃ dr' ∈ sA'.dishes, dr'.id = dr.id) ∧
      (∀ n, sumQuantity sA'.ingredients_stock n
        = sumQuantity sA.ingredients_stock n + sumQuantity sB.ingredients_stock n) := by
  rcases mergeStations_true_elim hm with ⟨s1, s2, hA, hB, hAB, hrest⟩
  have h1name : s1.station_name = A := by
    have := @List.find?_some KitchenStation (fun s => s.station_name == A) s1 mgr hA
    simpa using this
  have hnameA : (mergeInto s1 s2).station_name = A := by
    rw [mergeInto_name, h1name]
  have hnames1 : (setFirstNamed mgr A (mergeInto s1 s2)).map KitchenStation.station_name
      = mgr.map KitchenStation.station_name := names_setFirstNamed mgr A hnameA
  rcases findStation_idx_spec (setFirstNamed mgr A (mergeInto s1 s2)) B with
    ⟨h1B, h2B⟩ | ⟨iB, sB', h1B, h2B, h3B, h4B, h5B⟩
  · exfalso
    rcases findStation_idx_spec mgr B with ⟨g1, g2⟩ | ⟨i, s, g1, g2, g3, g4, g5⟩
    · rw [hB] at g2
      cases g2
    · rw [findStationIdx_eq_of_names hnames1 B, g1] at h1B
      cases h1B
  · have hmgr' : mgr'
        = (setFirstNamed mgr A (mergeInto s1 s2)).eraseP (fun t => t.station_name == B) := by
      rw [hrest]
      simp only [removeStation, h1B, h5B]
    constructor
    · rw [hmgr']
      show ((setFirstNamed mgr A (mergeInto s1 s2)).eraseP
          (fun t => t.station_name == B)).find? (fun t => t.station_name == B) = none
      apply find?_eraseP_of_countP_le_one
      calc (setFirstNamed mgr A (mergeInto s1 s2)).countP (fun t => t.station_name == B)
          = ((setFirstNamed mgr A (mergeInto s1 s2)).map
              KitchenStation.station_name).countP (fun n => n == B) :=
            countP_station_names _ B
        _ = (mgr.map KitchenStation.station_name).countP (fun n => n == B) := by
            rw [hnames1]
        _ = mgr.countP (fun s => s.station_name == B) := (countP_station_names mgr B).symm
        _ ≤ 1 := hB1
    · refine ⟨s1, s2, mergeInto s1 s2, hA, hB, ?_, ?_, ?_, ?_⟩
      · rw [hmgr', findStation_eraseP_ne _ hAB]
        exact findStation_setFirstNamed_self hA _ hnameA
      · intro dr hdr
        exact ⟨dr, mergeInto_dishes_left hdr, rfl⟩
      · intro dr hdr
        exact mergeInto_dishes_right hdr
      · intro n
        exact mergeInto_sumQuantity s1 s2 n

/-- C4 (counterexample): with TWO stations named `b`, a successful
`mergeStations("a", "b")` removes only the first of them, so
`findStation("b")` still succeeds afterwards. -/
theorem C4_counterexample :
    (mergeStations exMgrDupB "a" "b").fst = true ∧
    findStation ((mergeStations exMgrDupB "a" "b").snd) "b" ≠ none := by
  decide

/-- Witness for the amended C4 on a successful two-station merge. -/
theorem C4_witness :
    mergeStations exMgrPair "a" "b"
      = (true, [⟨"a", [⟨6, ⟨"D", [], 0, 0, CuisineType.OTHER⟩⟩,
                       ⟨7, ⟨"E", [], 0, 0, CuisineType.OTHER⟩⟩],
                 [⟨"Tomato", 5, 0, 0⟩, ⟨"Lettuce", 3, 0, 0⟩]⟩]) ∧
    exMgrPair.countP (fun s => s.station_name == "b") ≤ 1 ∧
    (findStation [(⟨"a", [⟨6, ⟨"D", [], 0, 0, CuisineType.OTHER⟩⟩,
                          ⟨7, ⟨"E", [], 0, 0, CuisineType.OTHER⟩⟩],
                    [⟨"Tomato", 5, 0, 0⟩, ⟨"Lettuce", 3, 0, 0⟩]⟩ : KitchenStation)] "b"
        = none ∧
      ∃ sA sB sA', findStation exMgrPair "a" = some sA ∧
        findStation exMgrPair "b" = some sB ∧
        findStation [(⟨"a", [⟨6, ⟨"D", [], 0, 0, CuisineType.OTHER⟩⟩,
                             ⟨7, ⟨"E", [], 0, 0, CuisineType.OTHER⟩⟩],
                       [⟨"Tomato", 5, 0, 0⟩, ⟨"Lettuce", 3, 0, 0⟩]⟩ : KitchenStation)] "a"
          = some sA' ∧
        (∀ dr ∈ sA.dishes, ∃ dr' ∈ sA'.dishes, dr'.id = dr.id) ∧
        (∀ dr ∈ sB.dishes, ∃ dr' ∈ sA'.dishes, dr'.id = dr.id) ∧
        (∀ n, sumQuantity sA'.ingredients_stock n
          = sumQuantity sA.ingredients_stock n + sumQuantity sB.ingredients_stock n)) :=
  ⟨by decide, by decide,
    C4_merge_combines exMgrPair
      [⟨"a", [⟨6, ⟨"D", [], 0, 0, CuisineType.OTHER⟩⟩,
              ⟨7, ⟨"E", [], 0, 0, CuisineType.OTHER⟩⟩],
        [⟨"Tomato", 5, 0, 0⟩, ⟨"Lettuce", 3, 0, 0⟩]⟩] "a" "b" (by decide) (by decide)⟩

end Bistro
